import Mathlib

/-!
Shallow embedding of `rust-fs-db` (`src/lib.rs`): a file-system backed
key:value store `FileStore<V>` with a pluggable `EncodeDecode` codec.

The filesystem is modelled as the state of the store's directory: a flag
saying whether the directory exists plus an association list of entries
(file name, file contents).  File names may be non-Unicode (the Rust
`OsString` that fails `into_string`), which matters because `list` and
`load_all` call `.into_string().unwrap()` on each entry name and hence
panic on such names; we model that outcome with an explicit `panic`
constructor in the result type of those two operations.  All other
operations are deterministic functions of the directory state, returning
the new state together with a `Result`.
-/

namespace FsDb

/-- Byte buffers (`Vec<u8>` / `&[u8]`). -/
abbrev Bytes := List Nat

/-- A directory entry's file name: either valid Unicode (carrying the
string) or a non-Unicode OS name (abstracted by an identifier). -/
inductive FName
  | uni (s : String)
  | nonUni (id : Nat)
deriving DecidableEq

/-- Whether a file name is valid Unicode, i.e. `into_string` succeeds. -/
def FName.isUni : FName → Bool
  | .uni _ => true
  | .nonUni _ => false

/-- The `io::Error` kinds the deterministic model produces. -/
inductive IoErr
  | notFound
deriving DecidableEq

/-- `Error<E>` from `src/lib.rs`: an I/O failure or an inner codec
failure. -/
inductive Error (E : Type)
  | Io (e : IoErr)
  | Inner (e : E)
deriving DecidableEq

/-- The state of the store's directory: whether it exists, and its
entries as (file name, file contents) pairs.  A real directory has
pairwise distinct names; `FS.wf` states that below. -/
structure FS where
  dirExists : Bool
  entries : List (FName × Bytes)
deriving DecidableEq

/-- Well-formedness of a directory: entry names are pairwise distinct
(guaranteed by any real filesystem). -/
def FS.wf (fs : FS) : Prop := (fs.entries.map Prod.fst).Nodup

/-- The `EncodeDecode` trait from `src/lib.rs`, as a record of the two
conversion functions. -/
structure Codec (V E : Type) where
  encode : V → Except E Bytes
  decode : Bytes → Except E V

/-- First entry with the given name, if any (what reading the file at
that name sees). -/
def lookupEntry : List (FName × Bytes) → FName → Option Bytes
  | [], _ => none
  | (m, b) :: rest, n => if m = n then some b else lookupEntry rest n

/-- `fs::write` on the entry list: overwrite the entry with this name if
present, else append a fresh entry. -/
def setEntry : List (FName × Bytes) → FName → Bytes → List (FName × Bytes)
  | [], n, b => [(n, b)]
  | (m, c) :: rest, n, b =>
    if m = n then (n, b) :: rest else (m, c) :: setEntry rest n b

/-- `fs::remove_file` on the entry list: drop the (first) entry with this
name. -/
def eraseEntry : List (FName × Bytes) → FName → List (FName × Bytes)
  | [], _ => []
  | (m, c) :: rest, n => if m = n then rest else (m, c) :: eraseEntry rest n

/-- `fs::read` of the file named `n` inside the directory. -/
def fsRead (fs : FS) (n : FName) : Except IoErr Bytes :=
  if fs.dirExists then
    match lookupEntry fs.entries n with
    | some b => .ok b
    | none => .error .notFound
  else .error .notFound

/-- `fs::write` of the file named `n`: create or fully overwrite. -/
def fsWrite (fs : FS) (n : FName) (b : Bytes) : FS × Except IoErr Unit :=
  if fs.dirExists then ({ fs with entries := setEntry fs.entries n b }, .ok ())
  else (fs, .error .notFound)

/-- `fs::remove_file` of the file named `n`. -/
def fsRemove (fs : FS) (n : FName) : FS × Except IoErr Unit :=
  if fs.dirExists ∧ (lookupEntry fs.entries n).isSome then
    ({ fs with entries := eraseEntry fs.entries n }, .ok ())
  else (fs, .error .notFound)

/-- `fs::read_dir`: the entries, or a failure when the directory does not
exist. -/
def fsReadDir (fs : FS) : Except IoErr (List (FName × Bytes)) :=
  if fs.dirExists then .ok fs.entries else .error .notFound

/-- Paths as lists of segments; only the constructor stores one. -/
abbrev Path := List String

/-- The `FileStore` struct: holds the directory path (the `PhantomData`
field has no runtime content). -/
structure FileStore where
  dir : Path

/-- Outcome of an operation whose Rust code can panic (`unwrap` on
`OsString::into_string` in `list` and `load_all`): a panic, an error, or
a value. -/
inductive PRes (E α : Type)
  | panic
  | err (e : Error E)
  | ok (a : α)

/-- `FileStore::new`: wraps the path; touches no filesystem state (its
type takes no `FS`) and always returns `Ok`. -/
def FileStore.new (E : Type) (p : Path) : Except (Error E) FileStore :=
  .ok ⟨p⟩

/-- The loop body of `list`: each entry's name through
`into_string().unwrap()` — panics at the first non-Unicode name. -/
def listNames (E : Type) : List (FName × Bytes) → PRes E (List String)
  | [] => .ok []
  | (n, _) :: rest =>
    match n with
    | .nonUni _ => .panic
    | .uni s =>
      match listNames E rest with
      | .panic => .panic
      | .err e => .err e
      | .ok l => .ok (s :: l)

/-- `FileStore::list`. -/
def list (E : Type) (fs : FS) : PRes E (List String) :=
  match fsReadDir fs with
  | .error e => .err (.Io e)
  | .ok es => listNames E es

/-- `FileStore::load`: join the key to the directory, read, decode. -/
def load (c : Codec V E) (fs : FS) (k : String) : Except (Error E) V :=
  match fsRead fs (.uni k) with
  | .error e => .error (.Io e)
  | .ok buff =>
    match c.decode buff with
    | .error e => .error (.Inner e)
    | .ok v => .ok v

/-- `FileStore::store`: encode, then write; the pair carries the
directory state after the call. -/
def store (c : Codec V E) (fs : FS) (k : String) (v : V) :
    FS × Except (Error E) Unit :=
  match c.encode v with
  | .error e => (fs, .error (.Inner e))
  | .ok bin =>
    match fsWrite fs (.uni k) bin with
    | (fs', .error e) => (fs', .error (.Io e))
    | (fs', .ok _) => (fs', .ok ())

/-- The loop body of `load_all`: per entry, unwrap the name (panic on
non-Unicode), read its bytes, decode; abort on the first failure. -/
def loadEntries (c : Codec V E) : List (FName × Bytes) → PRes E (List (String × V))
  | [] => .ok []
  | (n, b) :: rest =>
    match n with
    | .nonUni _ => .panic
    | .uni s =>
      match c.decode b with
      | .error e => .err (.Inner e)
      | .ok v =>
        match loadEntries c rest with
        | .panic => .panic
        | .err e => .err e
        | .ok l => .ok ((s, v) :: l)

/-- `FileStore::load_all`. -/
def load_all (c : Codec V E) (fs : FS) : PRes E (List (String × V)) :=
  match fsReadDir fs with
  | .error e => .err (.Io e)
  | .ok es => loadEntries c es

/-- `FileStore::store_all`: store each pair in sequence order, aborting
on the first failure. -/
def store_all (c : Codec V E) (fs : FS) :
    List (String × V) → FS × Except (Error E) Unit
  | [] => (fs, .ok ())
  | (k, v) :: rest =>
    match store c fs k v with
    | (fs', .error e) => (fs', .error e)
    | (fs', .ok _) => store_all c fs' rest

/-- `FileStore::rm`: delete the key's file. -/
def rm (E : Type) (fs : FS) (k : String) : FS × Except (Error E) Unit :=
  match fsRemove fs (.uni k) with
  | (fs', .error e) => (fs', .error (.Io e))
  | (fs', .ok _) => (fs', .ok ())

/-- A concrete round-trippable codec on `Nat` used to instantiate the
theorems: a one-byte encoding. -/
def natCodec : Codec Nat Unit where
  encode v := .ok [v]
  decode b :=
    match b with
    | [v] => .ok v
    | _ => .error ()

/-- A codec whose `encode` always fails. -/
def failCodec : Codec Nat Unit where
  encode _ := .error ()
  decode _ := .error ()

/-- A codec whose `decode` accepts any bytes. -/
def constCodec : Codec Nat Unit where
  encode v := .ok [v]
  decode _ := .ok 0

/-- A codec that encodes even numbers only. -/
def evenCodec : Codec Nat Unit where
  encode v := if v % 2 = 0 then .ok [v] else .error ()
  decode b :=
    match b with
    | [v] => .ok v
    | _ => .error ()

/-! ### Lemmas about the entry-list primitives -/

theorem lookupEntry_setEntry_self (es : List (FName × Bytes)) (n : FName) (b : Bytes) :
    lookupEntry (setEntry es n b) n = some b := by
  induction es with
  | nil => simp [setEntry, lookupEntry]
  | cons hd tl ih =>
    obtain ⟨m, c⟩ := hd
    by_cases h : m = n
    · simp [setEntry, lookupEntry, h]
    · simp [setEntry, lookupEntry, h, ih]

theorem lookupEntry_setEntry_other (es : List (FName × Bytes)) (n m : FName) (b : Bytes)
    (h : m ≠ n) : lookupEntry (setEntry es n b) m = lookupEntry es m := by
  have hnm : n ≠ m := Ne.symm h
  induction es with
  | nil => simp [setEntry, lookupEntry, hnm]
  | cons hd tl ih =>
    obtain ⟨p, c⟩ := hd
    by_cases hp : p = n
    · subst hp
      simp [setEntry, lookupEntry, hnm]
    · simp [setEntry, lookupEntry, hp, ih]

theorem mem_names_setEntry (es : List (FName × Bytes)) (n : FName) (b : Bytes) (m : FName) :
    m ∈ (setEntry es n b).map Prod.fst ↔ m ∈ es.map Prod.fst ∨ m = n := by
  induction es with
  | nil => simp [setEntry]
  | cons hd tl ih =>
    obtain ⟨p, c⟩ := hd
    by_cases hp : p = n
    · subst hp
      simp [setEntry]
      tauto
    · simp [setEntry, hp, ih]
      tauto

theorem lookupEntry_eraseEntry_other (es : List (FName × Bytes)) (n m : FName)
    (h : m ≠ n) : lookupEntry (eraseEntry es n) m = lookupEntry es m := by
  have hnm : n ≠ m := Ne.symm h
  induction es with
  | nil => simp [eraseEntry]
  | cons hd tl ih =>
    obtain ⟨p, c⟩ := hd
    by_cases hp : p = n
    · subst hp
      simp [eraseEntry, lookupEntry, hnm]
    · simp [eraseEntry, lookupEntry, hp, ih]

theorem not_mem_names_eraseEntry (es : List (FName × Bytes)) (n : FName)
    (h : (es.map Prod.fst).Nodup) : n ∉ (eraseEntry es n).map Prod.fst := by
  induction es with
  | nil => simp [eraseEntry]
  | cons hd tl ih =>
    obtain ⟨p, c⟩ := hd
    rw [List.map_cons, List.nodup_cons] at h
    by_cases hp : p = n
    · subst hp
      simpa [eraseEntry] using h.1
    · have hnp : n ≠ p := fun hh => hp hh.symm
      simp only [eraseEntry, if_neg hp, List.map_cons]
      intro hmem
      rcases List.mem_cons.mp hmem with h1 | h2
      · exact hnp h1
      · exact ih h.2 h2

theorem mem_names_eraseEntry (es : List (FName × Bytes)) (n m : FName) (h : m ≠ n) :
    m ∈ (eraseEntry es n).map Prod.fst ↔ m ∈ es.map Prod.fst := by
  have hnm : n ≠ m := Ne.symm h
  induction es with
  | nil => simp [eraseEntry]
  | cons hd tl ih =>
    obtain ⟨p, c⟩ := hd
    by_cases hp : p = n
    · subst hp
      simp [eraseEntry]
      tauto
    · simp [eraseEntry, hp, ih]

theorem lookupEntry_eq_none (es : List (FName × Bytes)) (n : FName) :
    lookupEntry es n = none ↔ n ∉ es.map Prod.fst := by
  induction es with
  | nil => simp [lookupEntry]
  | cons hd tl ih =>
    obtain ⟨p, c⟩ := hd
    by_cases hp : p = n
    · subst hp
      simp [lookupEntry]
    · have hnp : ¬n = p := fun hh => hp hh.symm
      simp [lookupEntry, hp, ih, hnp]

/-! ### Lemmas about the `list` and `load_all` loop bodies -/

theorem listNames_of_uni (E : Type) (es : List (FName × Bytes))
    (h : ∀ e ∈ es, e.1.isUni = true) :
    ∃ l, listNames E es = .ok l ∧ l.map FName.uni = es.map Prod.fst := by
  induction es with
  | nil => exact ⟨[], rfl, rfl⟩
  | cons hd tl ih =>
    obtain ⟨n, b⟩ := hd
    have hn := h (n, b) (List.mem_cons_self _ _)
    match n, hn with
    | .uni s, _ =>
      obtain ⟨l, hl, hmap⟩ := ih (fun e he => h e (List.mem_cons_of_mem _ he))
      exact ⟨s :: l, by simp [listNames, hl], by simp [hmap]⟩

theorem listNames_ne_panic (E : Type) (es : List (FName × Bytes))
    (h : ∀ e ∈ es, e.1.isUni = true) : listNames E es ≠ .panic := by
  obtain ⟨l, hl, -⟩ := listNames_of_uni E es h
  simp [hl]

theorem loadEntries_of_ok (c : Codec V E) (es : List (FName × Bytes))
    (huni : ∀ e ∈ es, e.1.isUni = true)
    (hdec : ∀ e ∈ es, ∃ v, c.decode e.2 = .ok v) :
    ∃ l, loadEntries c es = .ok l ∧
      List.Forall₂ (fun e p => e.1 = FName.uni p.1 ∧ c.decode e.2 = Except.ok p.2) es l := by
  induction es with
  | nil => exact ⟨[], rfl, List.Forall₂.nil⟩
  | cons hd tl ih =>
    obtain ⟨n, b⟩ := hd
    have hn := huni (n, b) (List.mem_cons_self _ _)
    obtain ⟨v, hv⟩ := hdec (n, b) (List.mem_cons_self _ _)
    match n, hn with
    | .uni s, _ =>
      obtain ⟨l, hl, hall⟩ := ih (fun e he => huni e (List.mem_cons_of_mem _ he))
        (fun e he => hdec e (List.mem_cons_of_mem _ he))
      refine ⟨(s, v) :: l, by simp [loadEntries, hv, hl], ?_⟩
      exact List.Forall₂.cons ⟨rfl, hv⟩ hall

theorem loadEntries_ne_panic (c : Codec V E) (es : List (FName × Bytes))
    (huni : ∀ e ∈ es, e.1.isUni = true) : loadEntries c es ≠ .panic := by
  induction es with
  | nil => simp [loadEntries]
  | cons hd tl ih =>
    obtain ⟨n, b⟩ := hd
    have hn := huni (n, b) (List.mem_cons_self _ _)
    match n, hn with
    | .uni s, _ =>
      have htl := ih (fun e he => huni e (List.mem_cons_of_mem _ he))
      cases hv : c.decode b with
      | error e => simp [loadEntries, hv]
      | ok v =>
        cases hrest : loadEntries c tl with
        | panic => exact absurd hrest htl
        | err e => simp [loadEntries, hv, hrest]
        | ok l => simp [loadEntries, hv, hrest]

theorem loadEntries_first_error (c : Codec V E) (pre : List (FName × Bytes))
    (n : FName) (b : Bytes) (suf : List (FName × Bytes)) (e : E)
    (huni : ∀ x ∈ pre, x.1.isUni = true) (hn : n.isUni = true)
    (hdec : ∀ x ∈ pre, ∃ v, c.decode x.2 = .ok v)
    (hb : c.decode b = .error e) :
    loadEntries c (pre ++ (n, b) :: suf) = .err (.Inner e) := by
  induction pre with
  | nil =>
    match n, hn with
    | .uni s, _ => simp [loadEntries, hb]
  | cons hd tl ih =>
    obtain ⟨m, d⟩ := hd
    have hm := huni (m, d) (List.mem_cons_self _ _)
    obtain ⟨v, hv⟩ := hdec (m, d) (List.mem_cons_self _ _)
    match m, hm with
    | .uni s, _ =>
      have htl := ih (fun x hx => huni x (List.mem_cons_of_mem _ hx))
        (fun x hx => hdec x (List.mem_cons_of_mem _ hx))
      simp [loadEntries, hv, htl]

/-! ### Lemmas about `store` and `store_all` -/

theorem store_success (c : Codec V E) (fs : FS) (k : String) (v : V) (b : Bytes)
    (henc : c.encode v = .ok b) (hdir : fs.dirExists = true) :
    store c fs k v = ({ fs with entries := setEntry fs.entries (.uni k) b }, .ok ()) := by
  simp [store, fsWrite, henc, hdir]

theorem store_fail_state (c : Codec V E) (fs : FS) (k : String) (v : V) (err : Error E)
    (h : (store c fs k v).2 = .error err) : (store c fs k v).1 = fs := by
  cases henc : c.encode v with
  | error e => simp [store, henc]
  | ok bin =>
    cases hdir : fs.dirExists with
    | false => simp [store, fsWrite, henc, hdir]
    | true => simp [store, fsWrite, henc, hdir] at h

theorem store_dirExists (c : Codec V E) (fs : FS) (k : String) (v : V) :
    ((store c fs k v).1).dirExists = fs.dirExists := by
  cases henc : c.encode v with
  | error e => simp [store, henc]
  | ok bin =>
    cases hdir : fs.dirExists with
    | false => simp [store, fsWrite, henc, hdir]
    | true => simp [store, fsWrite, henc, hdir]

theorem store_ok_mem (c : Codec V E) (fs : FS) (k : String) (v : V)
    (h : (store c fs k v).2 = .ok ()) :
    FName.uni k ∈ ((store c fs k v).1).entries.map Prod.fst := by
  cases henc : c.encode v with
  | error e => simp [store, henc] at h
  | ok bin =>
    cases hdir : fs.dirExists with
    | false => simp [store, fsWrite, henc, hdir] at h
    | true =>
      have hm := (mem_names_setEntry fs.entries (.uni k) bin (FName.uni k)).mpr (Or.inr rfl)
      simpa [store, fsWrite, henc, hdir] using hm

theorem store_names_mono (c : Codec V E) (fs : FS) (k : String) (v : V) (n : FName)
    (h : n ∈ fs.entries.map Prod.fst) :
    n ∈ ((store c fs k v).1).entries.map Prod.fst := by
  cases henc : c.encode v with
  | error e => simpa [store, henc] using h
  | ok bin =>
    cases hdir : fs.dirExists with
    | false => simpa [store, fsWrite, henc, hdir] using h
    | true =>
      have hm := (mem_names_setEntry fs.entries (.uni k) bin n).mpr (Or.inl h)
      simpa [store, fsWrite, henc, hdir] using hm

theorem store_preserves_other_lookup (c : Codec V E) (fs : FS) (k : String) (v : V)
    (n : FName) (h : n ≠ FName.uni k) :
    lookupEntry ((store c fs k v).1).entries n = lookupEntry fs.entries n := by
  cases henc : c.encode v with
  | error e => simp [store, henc]
  | ok bin =>
    cases hdir : fs.dirExists with
    | false => simp [store, fsWrite, henc, hdir]
    | true =>
      simp [store, fsWrite, henc, hdir]
      exact lookupEntry_setEntry_other fs.entries (.uni k) n bin h

theorem store_all_cons (c : Codec V E) (fs : FS) (k : String) (v : V)
    (rest : List (String × V)) :
    store_all c fs ((k, v) :: rest) =
      match store c fs k v with
      | (fs', .error e) => (fs', .error e)
      | (fs', .ok _) => store_all c fs' rest := rfl

theorem store_all_append (c : Codec V E) (fs : FS) (xs ys : List (String × V)) :
    store_all c fs (xs ++ ys) =
      match store_all c fs xs with
      | (fs1, .error e) => (fs1, .error e)
      | (fs1, .ok _) => store_all c fs1 ys := by
  induction xs generalizing fs with
  | nil => simp [store_all]
  | cons hd tl ih =>
    obtain ⟨k, v⟩ := hd
    cases hst : store c fs k v with
    | mk fs' r =>
      cases r with
      | error e => simp [store_all, hst]
      | ok u => simpa [store_all, hst] using ih fs'

theorem store_all_names_mono (c : Codec V E) (fs : FS) (l : List (String × V))
    (n : FName) (h : n ∈ fs.entries.map Prod.fst) :
    n ∈ ((store_all c fs l).1).entries.map Prod.fst := by
  induction l generalizing fs with
  | nil => simpa [store_all] using h
  | cons hd tl ih =>
    obtain ⟨k, v⟩ := hd
    have hmono := store_names_mono c fs k v n h
    cases hst : store c fs k v with
    | mk fs' r =>
      rw [hst] at hmono
      cases r with
      | error e => simpa [store_all, hst] using hmono
      | ok u => simpa [store_all, hst] using ih fs' hmono

theorem store_all_preserves_lookup (c : Codec V E) (fs : FS) (l : List (String × V))
    (n : FName) (h : ∀ x ∈ l, n ≠ FName.uni x.1) :
    lookupEntry ((store_all c fs l).1).entries n = lookupEntry fs.entries n := by
  induction l generalizing fs with
  | nil => simp [store_all]
  | cons hd tl ih =>
    obtain ⟨k, v⟩ := hd
    have hpres := store_preserves_other_lookup c fs k v n (h (k, v) (List.mem_cons_self _ _))
    cases hst : store c fs k v with
    | mk fs' r =>
      rw [hst] at hpres
      cases r with
      | error e => simpa [store_all, hst] using hpres
      | ok u =>
        rw [store_all_cons, hst]
        rw [ih fs' (fun x hx => h x (List.mem_cons_of_mem _ hx))]
        exact hpres

theorem store_all_ok_inv (c : Codec V E) (fs : FS) (k : String) (v : V)
    (rest : List (String × V)) (h : (store_all c fs ((k, v) :: rest)).2 = .ok ()) :
    (store c fs k v).2 = .ok ()
      ∧ store_all c fs ((k, v) :: rest) = store_all c (store c fs k v).1 rest := by
  cases hst : store c fs k v with
  | mk fs' r =>
    cases r with
    | error e => simp [store_all, hst] at h
    | ok u => simp [store_all, hst]

theorem store_all_ok_mem (c : Codec V E) (fs : FS) (l : List (String × V))
    (h : (store_all c fs l).2 = .ok ()) :
    ∀ x ∈ l, FName.uni x.1 ∈ ((store_all c fs l).1).entries.map Prod.fst := by
  induction l generalizing fs with
  | nil => simp
  | cons hd tl ih =>
    obtain ⟨k, v⟩ := hd
    obtain ⟨hok, heq⟩ := store_all_ok_inv c fs k v tl h
    rw [heq] at h ⊢
    intro x hx
    rcases List.mem_cons.mp hx with h1 | h2
    · subst h1
      exact store_all_names_mono c _ tl _ (store_ok_mem c fs k v hok)
    · exact ih _ h x h2

theorem store_ok_inv (c : Codec V E) (fs : FS) (k : String) (v : V)
    (h : (store c fs k v).2 = .ok ()) :
    ∃ bin, c.encode v = .ok bin ∧ fs.dirExists = true ∧
      (store c fs k v).1 = { fs with entries := setEntry fs.entries (.uni k) bin } := by
  cases henc : c.encode v with
  | error e => simp [store, henc] at h
  | ok bin =>
    cases hdir : fs.dirExists with
    | false => simp [store, fsWrite, henc, hdir] at h
    | true => exact ⟨bin, rfl, rfl, by simp [store, fsWrite, henc, hdir]⟩

theorem store_all_ok_lookup (c : Codec V E) (fs : FS) (l : List (String × V))
    (h : (store_all c fs l).2 = .ok ()) (hnd : (l.map Prod.fst).Nodup) :
    ∀ x ∈ l, ∃ bx, c.encode x.2 = .ok bx ∧
      lookupEntry ((store_all c fs l).1).entries (FName.uni x.1) = some bx := by
  induction l generalizing fs with
  | nil => simp
  | cons hd tl ih =>
    obtain ⟨k, v⟩ := hd
    obtain ⟨hok, heq⟩ := store_all_ok_inv c fs k v tl h
    rw [heq] at h ⊢
    rw [List.map_cons, List.nodup_cons] at hnd
    intro x hx
    rcases List.mem_cons.mp hx with h1 | h2
    · subst h1
      obtain ⟨bin, henc, hdir, hstate⟩ := store_ok_inv c fs k v hok
      refine ⟨bin, henc, ?_⟩
      have hkeys : ∀ y ∈ tl, FName.uni k ≠ FName.uni y.1 := by
        intro y hy hne
        have hk : k = y.1 := by simpa using hne
        have hmem : y.1 ∈ tl.map Prod.fst := List.mem_map_of_mem Prod.fst hy
        exact hnd.1 (hk ▸ hmem)
      rw [store_all_preserves_lookup c _ tl _ hkeys, hstate]
      exact lookupEntry_setEntry_self fs.entries _ bin
    · exact ih _ h hnd.2 x h2

/-! ### Claim theorems -/

/-- C1: for every round-trippable value `v` (the codec encodes it to bytes
that decode back to `v`) and key `k`, `store(k, v)` succeeds and a
subsequent `load(k)` on the resulting directory returns `Ok` with a value
equal to `v`. -/
theorem store_load_roundtrip (V E : Type) (c : Codec V E) (fs : FS) (k : String)
    (v : V) (b : Bytes) (hdir : fs.dirExists = true)
    (henc : c.encode v = .ok b) (hdec : c.decode b = .ok v) :
    (store c fs k v).2 = .ok () ∧ load c (store c fs k v).1 k = .ok v := by
  rw [store_success c fs k v b henc hdir]
  exact ⟨rfl, by simp [load, fsRead, hdir, lookupEntry_setEntry_self, hdec]⟩

/-- C1 witness: storing `5` under key `"k"` in an empty directory and
loading it back returns `5`. -/
theorem store_load_roundtrip_witness :
    (⟨true, []⟩ : FS).dirExists = true ∧
    natCodec.encode 5 = .ok [5] ∧ natCodec.decode [5] = .ok 5 ∧
    ((store natCodec ⟨true, []⟩ "k" 5).2 = .ok ()
      ∧ load natCodec (store natCodec ⟨true, []⟩ "k" 5).1 "k" = .ok 5) :=
  ⟨rfl, rfl, rfl, store_load_roundtrip Nat Unit natCodec ⟨true, []⟩ "k" 5 [5] rfl rfl rfl⟩

/-- C3: when the codec's `encode` fails, `store` returns the `Inner`
(codec-failure) variant and the directory state is exactly what it was
before the call: no entry is created, deleted or changed. -/
theorem store_encode_fail_no_write (V E : Type) (c : Codec V E) (fs : FS)
    (k : String) (v : V) (e : E) (henc : c.encode v = .error e) :
    store c fs k v = (fs, .error (.Inner e)) := by
  simp [store, henc]

/-- C3 witness: a codec that always fails to encode makes `store` return
`Inner` and leave a one-entry directory untouched. -/
theorem store_encode_fail_no_write_witness :
    failCodec.encode 7 = .error () ∧
    store failCodec ⟨true, [(FName.uni "a", [1])]⟩ "a" 7
      = (⟨true, [(FName.uni "a", [1])]⟩, .error (.Inner ())) :=
  ⟨rfl, store_encode_fail_no_write Nat Unit failCodec
    ⟨true, [(FName.uni "a", [1])]⟩ "a" 7 () rfl⟩

/-- C6: for a key with no entry in the directory (also when the directory
itself does not exist), `load` fails with the `Io` variant — for every
codec, so `decode` is never consulted. -/
theorem load_missing_io_error (V E : Type) (c : Codec V E) (fs : FS) (k : String)
    (h : lookupEntry fs.entries (.uni k) = none) :
    load c fs k = .error (.Io .notFound) := by
  cases hdir : fs.dirExists with
  | false => simp [load, fsRead, hdir]
  | true => simp [load, fsRead, hdir, h]

/-- C6 witness: loading key `"b"` from a directory holding only `"a"`
fails with the I/O variant. -/
theorem load_missing_io_error_witness :
    lookupEntry (⟨true, [(FName.uni "a", [1])]⟩ : FS).entries (.uni "b") = none ∧
    load natCodec ⟨true, [(FName.uni "a", [1])]⟩ "b" = .error (.Io .notFound) :=
  ⟨by decide, load_missing_io_error Nat Unit natCodec
    ⟨true, [(FName.uni "a", [1])]⟩ "b" (by decide)⟩

/-- C9: `FileStore::new` always returns `Ok` with a store holding the
given path; its type consumes no filesystem state, so it performs no
filesystem access. -/
theorem new_always_ok (E : Type) (p : Path) :
    FileStore.new E p = .ok ⟨p⟩ := rfl

/-- C2 counterexample: a directory containing one entry whose file name
is not valid Unicode makes `list` panic (the `unwrap` on
`OsString::into_string`), so `list` does not always end in `Ok` or one of
the two error variants. -/
theorem list_panics_on_non_unicode :
    list Unit ⟨true, [(FName.nonUni 0, [])]⟩ = PRes.panic := rfl

/-- C2 (amended): over every directory state whose entry names are all
valid Unicode, `list` and `load_all` return `Ok` or one of the two error
variants (`Io` or `Inner`) and never panic; an entry with a non-Unicode
file name instead makes them panic. -/
theorem list_load_all_no_panic (V E : Type) (c : Codec V E) (fs : FS)
    (huni : ∀ e ∈ fs.entries, e.1.isUni = true) :
    list E fs ≠ PRes.panic ∧ load_all c fs ≠ PRes.panic := by
  cases hdir : fs.dirExists with
  | false => simp [list, load_all, fsReadDir, hdir]
  | true =>
    constructor
    · simpa [list, fsReadDir, hdir] using listNames_ne_panic E fs.entries huni
    · simpa [load_all, fsReadDir, hdir] using loadEntries_ne_panic c fs.entries huni

/-- C2 witness: on a directory with the single Unicode-named entry `"a"`,
neither `list` nor `load_all` panics. -/
theorem list_load_all_no_panic_witness :
    (∀ e ∈ (⟨true, [(FName.uni "a", [1])]⟩ : FS).entries, e.1.isUni = true) ∧
    (list Unit ⟨true, [(FName.uni "a", [1])]⟩ ≠ PRes.panic
      ∧ load_all natCodec ⟨true, [(FName.uni "a", [1])]⟩ ≠ PRes.panic) :=
  ⟨by decide, list_load_all_no_panic Nat Unit natCodec
    ⟨true, [(FName.uni "a", [1])]⟩ (by decide)⟩

/-- C4 counterexample: a directory whose single entry decodes successfully
but carries a non-Unicode file name makes `load_all` panic instead of
returning one `(key, value)` pair per entry. -/
theorem load_all_panics_despite_decodable :
    (∀ e ∈ (⟨true, [(FName.nonUni 1, [])]⟩ : FS).entries,
      ∃ v, constCodec.decode e.2 = .ok v)
    ∧ load_all constCodec ⟨true, [(FName.nonUni 1, [])]⟩ = PRes.panic :=
  ⟨fun _ _ => ⟨0, rfl⟩, rfl⟩

/-- C4 (amended): over every directory state whose entry names are all
valid Unicode, `load_all` is fail-fast with no partial results: if every
entry decodes, it returns `Ok` with exactly one `(key, value)` pair per
directory entry (keys and values matching the entries in order); if some
entry fails to decode while all earlier ones decode, it returns that
first decode error in the `Inner` variant and no pairs at all. -/
theorem load_all_fail_fast (V E : Type) (c : Codec V E) (fs : FS)
    (hdir : fs.dirExists = true)
    (huni : ∀ e ∈ fs.entries, e.1.isUni = true) :
    ((∀ e ∈ fs.entries, ∃ v, c.decode e.2 = .ok v) →
      ∃ l, load_all c fs = .ok l ∧
        List.Forall₂ (fun e p => e.1 = FName.uni p.1 ∧ c.decode e.2 = Except.ok p.2)
          fs.entries l)
    ∧ (∀ pre n b suf e, fs.entries = pre ++ (n, b) :: suf →
        (∀ x ∈ pre, ∃ v, c.decode x.2 = Except.ok v) →
        c.decode b = .error e →
        load_all c fs = .err (.Inner e)) := by
  have hla : load_all c fs = loadEntries c fs.entries := by
    simp [load_all, fsReadDir, hdir]
  constructor
  · intro hdec
    obtain ⟨l, hl, hall⟩ := loadEntries_of_ok c fs.entries huni hdec
    exact ⟨l, by rw [hla, hl], hall⟩
  · intro pre n b suf e hsplit hpre hb
    rw [hla, hsplit]
    refine loadEntries_first_error c pre n b suf e ?_ ?_ hpre hb
    · intro x hx
      exact huni x (by rw [hsplit]; exact List.mem_append_left _ hx)
    · exact huni (n, b)
        (by rw [hsplit]; exact List.mem_append_right _ (List.mem_cons_self _ _))

/-- C4 witness: in a directory where entry `"a"` decodes and entry `"b"`
holds malformed bytes, `load_all` returns the codec failure in the
`Inner` variant. -/
theorem load_all_fail_fast_witness :
    (⟨true, [(FName.uni "a", [3]), (FName.uni "b", [])]⟩ : FS).dirExists = true ∧
    (∀ e ∈ (⟨true, [(FName.uni "a", [3]), (FName.uni "b", [])]⟩ : FS).entries,
      e.1.isUni = true) ∧
    load_all natCodec ⟨true, [(FName.uni "a", [3]), (FName.uni "b", [])]⟩
      = PRes.err (.Inner ()) :=
  ⟨rfl, by decide,
    (load_all_fail_fast Nat Unit natCodec
        ⟨true, [(FName.uni "a", [3]), (FName.uni "b", [])]⟩ rfl (by decide)).2
      [(FName.uni "a", [3])] (FName.uni "b") [] [] () rfl
      (by
        intro x hx
        simp at hx
        subst hx
        exact ⟨3, rfl⟩)
      rfl⟩

/-- C5: `store_all` processes its pairs in sequence order; if the store
of the pair after prefix `pre` fails, it returns that error with the
directory exactly as it was after storing `pre` (the prefix is stored —
each prefix key has an entry, holding its encoded value when the prefix
keys are distinct — and nothing at or after the failing pair is written,
with no rollback). -/
theorem store_all_fail_fast (V E : Type) (c : Codec V E) (fs : FS)
    (pre suf : List (String × V)) (k : String) (v : V) (err : Error E)
    (hpre : (store_all c fs pre).2 = .ok ())
    (hfail : (store c (store_all c fs pre).1 k v).2 = .error err) :
    store_all c fs (pre ++ (k, v) :: suf) = ((store_all c fs pre).1, .error err)
    ∧ (∀ x ∈ pre, FName.uni x.1 ∈ ((store_all c fs pre).1).entries.map Prod.fst)
    ∧ ((pre.map Prod.fst).Nodup →
        ∀ x ∈ pre, ∃ bx, c.encode x.2 = .ok bx ∧
          lookupEntry ((store_all c fs pre).1).entries (FName.uni x.1) = some bx) := by
  refine ⟨?_, store_all_ok_mem c fs pre hpre,
    fun hnd => store_all_ok_lookup c fs pre hpre hnd⟩
  rw [store_all_append]
  cases hsa : store_all c fs pre with
  | mk fs1 r =>
    rw [hsa] at hpre hfail
    cases r with
    | error e => simp at hpre
    | ok u =>
      cases u
      show store_all c fs1 ((k, v) :: suf) = (fs1, Except.error err)
      rw [store_all_cons]
      cases hst : store c fs1 k v with
      | mk fs2 r2 =>
        have hstate := store_fail_state c fs1 k v err hfail
        rw [hst] at hfail hstate
        cases r2 with
        | ok u2 => simp at hfail
        | error e =>
          have he : e = err := by simpa using hfail
          have hf : fs2 = fs1 := by simpa using hstate
          subst he
          simp [hf]

/-- C5 witness: with a codec failing on odd numbers, storing
`[("a", 2), ("b", 3), ("c", 4)]` stores `"a"`, fails at `"b"` with the
`Inner` variant, and never writes `"c"`. -/
theorem store_all_fail_fast_witness :
    (store_all evenCodec ⟨true, []⟩ [("a", 2)]).2 = .ok () ∧
    (store evenCodec (store_all evenCodec ⟨true, []⟩ [("a", 2)]).1 "b" 3).2
      = .error (.Inner ()) ∧
    store_all evenCodec ⟨true, []⟩ ([("a", 2)] ++ ("b", 3) :: [("c", 4)])
      = ((store_all evenCodec ⟨true, []⟩ [("a", 2)]).1, .error (.Inner ())) :=
  ⟨rfl, rfl,
    (store_all_fail_fast Nat Unit evenCodec ⟨true, []⟩ [("a", 2)] [("c", 4)]
      "b" 3 (.Inner ()) rfl rfl).1⟩

theorem eraseEntry_subset (es : List (FName × Bytes)) (n : FName) :
    ∀ e ∈ eraseEntry es n, e ∈ es := by
  induction es with
  | nil => simp [eraseEntry]
  | cons hd tl ih =>
    obtain ⟨p, c⟩ := hd
    intro e he
    by_cases hp : p = n
    · subst hp
      simp [eraseEntry] at he
      exact List.mem_cons_of_mem _ he
    · simp only [eraseEntry, if_neg hp] at he
      rcases List.mem_cons.mp he with h1 | h2
      · exact h1 ▸ List.mem_cons_self _ _
      · exact List.mem_cons_of_mem _ (ih e h2)

/-- C7: starting from an empty directory, after successfully storing the
three distinct keys `a`, `b`, `c`, `list` succeeds and returns exactly
the set `{a, b, c}`: every stored key appears, no other name appears. -/
theorem listing_completeness (V E : Type) (cd : Codec V E) (a b c : String)
    (va vb vc : V) (ba bb bc : Bytes)
    (hab : a ≠ b) (hac : a ≠ c) (hbc : b ≠ c)
    (ha : cd.encode va = .ok ba) (hb : cd.encode vb = .ok bb)
    (hc : cd.encode vc = .ok bc) :
    (store cd ⟨true, []⟩ a va).2 = .ok ()
    ∧ (store cd (store cd ⟨true, []⟩ a va).1 b vb).2 = .ok ()
    ∧ (store cd (store cd (store cd ⟨true, []⟩ a va).1 b vb).1 c vc).2 = .ok ()
    ∧ ∃ l, list E (store cd (store cd (store cd ⟨true, []⟩ a va).1 b vb).1 c vc).1
        = PRes.ok l ∧ l.Nodup ∧ ∀ s, s ∈ l ↔ s = a ∨ s = b ∨ s = c := by
  have e1 : (store cd ⟨true, []⟩ a va).1 = ⟨true, [(FName.uni a, ba)]⟩ := by
    simp [store, fsWrite, ha, setEntry]
  have s1 : (store cd ⟨true, []⟩ a va).2 = .ok () := by
    simp [store, fsWrite, ha]
  have e2 : (store cd ⟨true, [(FName.uni a, ba)]⟩ b vb).1
      = ⟨true, [(FName.uni a, ba), (FName.uni b, bb)]⟩ := by
    simp [store, fsWrite, hb, setEntry, hab]
  have s2 : (store cd ⟨true, [(FName.uni a, ba)]⟩ b vb).2 = .ok () := by
    simp [store, fsWrite, hb]
  have e3 : (store cd ⟨true, [(FName.uni a, ba), (FName.uni b, bb)]⟩ c vc).1
      = ⟨true, [(FName.uni a, ba), (FName.uni b, bb), (FName.uni c, bc)]⟩ := by
    simp [store, fsWrite, hc, setEntry, hac, hbc]
  have s3 : (store cd ⟨true, [(FName.uni a, ba), (FName.uni b, bb)]⟩ c vc).2 = .ok () := by
    simp [store, fsWrite, hc]
  refine ⟨s1, ?_, ?_, ?_⟩
  · rw [e1]
    exact s2
  · rw [e1, e2]
    exact s3
  · rw [e1, e2, e3]
    refine ⟨[a, b, c], ?_, ?_, ?_⟩
    · simp [list, fsReadDir, listNames]
    · simp [hab, hac, hbc]
    · intro s
      simp

/-- C7 witness: storing keys `"a"`, `"b"`, `"c"` in an empty directory
makes `list` return exactly those three names. -/
theorem listing_completeness_witness :
    ("a" : String) ≠ "b" ∧ ("a" : String) ≠ "c" ∧ ("b" : String) ≠ "c"
    ∧ natCodec.encode 1 = .ok [1] ∧ natCodec.encode 2 = .ok [2]
    ∧ natCodec.encode 3 = .ok [3]
    ∧ ∃ l, list Unit
        (store natCodec (store natCodec (store natCodec ⟨true, []⟩ "a" 1).1 "b" 2).1 "c" 3).1
        = PRes.ok l ∧ l.Nodup ∧ ∀ s, s ∈ l ↔ s = "a" ∨ s = "b" ∨ s = "c" :=
  ⟨by decide, by decide, by decide, rfl, rfl, rfl,
    (listing_completeness Nat Unit natCodec "a" "b" "c" 1 2 3 [1] [2] [3]
      (by decide) (by decide) (by decide) rfl rfl rfl).2.2.2⟩

/-- C8: for a key with an existing entry (in an existing directory),
`rm` succeeds, after which `load` of that key fails with the `Io`
variant and the key no longer appears in the result of `list`; for a key
with no entry, `rm` fails with the `Io` variant. -/
theorem rm_semantics (V E : Type) (cd : Codec V E) (fs : FS) (k : String)
    (hwf : (fs.entries.map Prod.fst).Nodup)
    (huni : ∀ e ∈ fs.entries, e.1.isUni = true) :
    (fs.dirExists = true → (lookupEntry fs.entries (.uni k)).isSome = true →
      (rm E fs k).2 = .ok ()
      ∧ load cd (rm E fs k).1 k = .error (.Io .notFound)
      ∧ ∃ l, list E (rm E fs k).1 = PRes.ok l ∧ k ∉ l)
    ∧ (lookupEntry fs.entries (.uni k) = none →
      (rm E fs k).2 = .error (.Io .notFound)) := by
  constructor
  · intro hdir hsome
    have hrm : rm E fs k
        = ({ fs with entries := eraseEntry fs.entries (.uni k) }, .ok ()) := by
      simp [rm, fsRemove, hdir, hsome]
    rw [hrm]
    have hnone : lookupEntry (eraseEntry fs.entries (.uni k)) (.uni k) = none :=
      (lookupEntry_eq_none _ _).mpr (not_mem_names_eraseEntry fs.entries (.uni k) hwf)
    refine ⟨rfl, ?_, ?_⟩
    · simp [load, fsRead, hdir, hnone]
    · have huni' : ∀ e ∈ eraseEntry fs.entries (.uni k), e.1.isUni = true :=
        fun e he => huni e (eraseEntry_subset fs.entries (.uni k) e he)
      obtain ⟨l, hl, hmap⟩ := listNames_of_uni E (eraseEntry fs.entries (.uni k)) huni'
      refine ⟨l, ?_, ?_⟩
      · simp [list, fsReadDir, hdir, hl]
      · intro hk
        have hm : FName.uni k ∈ (eraseEntry fs.entries (.uni k)).map Prod.fst := by
          rw [← hmap]
          exact List.mem_map_of_mem FName.uni hk
        exact not_mem_names_eraseEntry fs.entries (.uni k) hwf hm
  · intro hnone
    simp [rm, fsRemove, hnone]

/-- C8 witness: removing key `"a"` from a directory holding `"a"` and
`"b"` succeeds, after which loading `"a"` fails with the I/O variant and
`"a"` is absent from `list`. -/
theorem rm_semantics_witness :
    ((⟨true, [(FName.uni "a", [1]), (FName.uni "b", [2])]⟩ : FS).entries.map
      Prod.fst).Nodup
    ∧ (∀ e ∈ (⟨true, [(FName.uni "a", [1]), (FName.uni "b", [2])]⟩ : FS).entries,
        e.1.isUni = true)
    ∧ ((rm Unit ⟨true, [(FName.uni "a", [1]), (FName.uni "b", [2])]⟩ "a").2 = .ok ()
      ∧ load natCodec (rm Unit ⟨true, [(FName.uni "a", [1]), (FName.uni "b", [2])]⟩ "a").1 "a"
          = .error (.Io .notFound)
      ∧ ∃ l, list Unit (rm Unit ⟨true, [(FName.uni "a", [1]), (FName.uni "b", [2])]⟩ "a").1
          = PRes.ok l ∧ "a" ∉ l) :=
  ⟨by decide, by decide,
    (rm_semantics Nat Unit natCodec ⟨true, [(FName.uni "a", [1]), (FName.uni "b", [2])]⟩
      "a" (by decide) (by decide)).1 rfl rfl⟩

/-- C10: frame property: a successful `store(k, v)` changes at most the
entry named `k` — every other name keeps exactly its previous contents,
and the entry-name set grows by at most `{k}` — and a successful `rm(k)`
deletes only the entry named `k`, leaving every other entry's presence
and contents unchanged. -/
theorem store_rm_frame (V E : Type) (cd : Codec V E) (fs : FS) (k : String) (v : V)
    (b : Bytes) (hwf : (fs.entries.map Prod.fst).Nodup)
    (henc : cd.encode v = .ok b) (hdir : fs.dirExists = true) :
    ((store cd fs k v).2 = .ok ()
      ∧ (∀ n, n ≠ FName.uni k →
          lookupEntry ((store cd fs k v).1).entries n = lookupEntry fs.entries n)
      ∧ (∀ n, n ∈ ((store cd fs k v).1).entries.map Prod.fst
          ↔ n ∈ fs.entries.map Prod.fst ∨ n = FName.uni k))
    ∧ ((lookupEntry fs.entries (.uni k)).isSome = true →
        (rm E fs k).2 = .ok ()
        ∧ (∀ n, n ≠ FName.uni k →
            lookupEntry ((rm E fs k).1).entries n = lookupEntry fs.entries n)
        ∧ (∀ n, n ≠ FName.uni k →
            (n ∈ ((rm E fs k).1).entries.map Prod.fst ↔ n ∈ fs.entries.map Prod.fst))
        ∧ FName.uni k ∉ ((rm E fs k).1).entries.map Prod.fst) := by
  constructor
  · rw [store_success cd fs k v b henc hdir]
    refine ⟨rfl, ?_, ?_⟩
    · intro n hn
      exact lookupEntry_setEntry_other fs.entries (.uni k) n b hn
    · intro n
      exact mem_names_setEntry fs.entries (.uni k) b n
  · intro hsome
    have hrm : rm E fs k
        = ({ fs with entries := eraseEntry fs.entries (.uni k) }, .ok ()) := by
      simp [rm, fsRemove, hdir, hsome]
    rw [hrm]
    refine ⟨rfl, ?_, ?_, ?_⟩
    · intro n hn
      exact lookupEntry_eraseEntry_other fs.entries (.uni k) n hn
    · intro n hn
      exact mem_names_eraseEntry fs.entries (.uni k) n hn
    · exact not_mem_names_eraseEntry fs.entries (.uni k) hwf

/-- C10 witness: in a one-entry directory holding `"x"`, the frame
property holds for storing and removing `"x"`. -/
theorem store_rm_frame_witness :
    ((⟨true, [(FName.uni "x", [9])]⟩ : FS).entries.map Prod.fst).Nodup
    ∧ natCodec.encode 4 = .ok [4]
    ∧ (⟨true, [(FName.uni "x", [9])]⟩ : FS).dirExists = true
    ∧ (((store natCodec ⟨true, [(FName.uni "x", [9])]⟩ "x" 4).2 = .ok ()
        ∧ (∀ n, n ≠ FName.uni "x" →
            lookupEntry ((store natCodec ⟨true, [(FName.uni "x", [9])]⟩ "x" 4).1).entries n
              = lookupEntry (⟨true, [(FName.uni "x", [9])]⟩ : FS).entries n)
        ∧ (∀ n, n ∈ ((store natCodec ⟨true, [(FName.uni "x", [9])]⟩ "x" 4).1).entries.map Prod.fst
            ↔ n ∈ (⟨true, [(FName.uni "x", [9])]⟩ : FS).entries.map Prod.fst ∨ n = FName.uni "x"))
      ∧ ((lookupEntry (⟨true, [(FName.uni "x", [9])]⟩ : FS).entries (.uni "x")).isSome = true →
          (rm Unit ⟨true, [(FName.uni "x", [9])]⟩ "x").2 = .ok ()
          ∧ (∀ n, n ≠ FName.uni "x" →
              lookupEntry ((rm Unit ⟨true, [(FName.uni "x", [9])]⟩ "x").1).entries n
                = lookupEntry (⟨true, [(FName.uni "x", [9])]⟩ : FS).entries n)
          ∧ (∀ n, n ≠ FName.uni "x" →
              (n ∈ ((rm Unit ⟨true, [(FName.uni "x", [9])]⟩ "x").1).entries.map Prod.fst
                ↔ n ∈ (⟨true, [(FName.uni "x", [9])]⟩ : FS).entries.map Prod.fst))
          ∧ FName.uni "x" ∉ ((rm Unit ⟨true, [(FName.uni "x", [9])]⟩ "x").1).entries.map Prod.fst)) :=
  ⟨by decide, rfl, rfl,
    store_rm_frame Nat Unit natCodec ⟨true, [(FName.uni "x", [9])]⟩ "x" 4 [4]
      (by decide) rfl rfl⟩

end FsDb
